import Mathlib

/-!
Verification of the course-planner catalog programs.

The repository holds four variants of one course-catalog program: a
vector-based first version together with an enhanced hash-map version
(original.cpp), a binary-search-tree version (artifact2.cpp) and a
database-backed version (part3.cpp).  This file gives a shallow
embedding of the parsing, normalization, catalog and reporting logic
of those programs over byte strings, and proves the stated properties.

Bytes are modelled as natural numbers (the byte value), strings as
lists of bytes.  The C locale classification used by the programs is
made explicit: isspace accepts the six ASCII whitespace bytes, and
toupper maps the bytes of lowercase ASCII letters to their uppercase
counterparts and fixes every other byte.
-/

namespace CoursePlanner

/-- A C++ byte string: the list of byte values. -/
abbrev Str := List Nat

/-- `std::isspace` in the C locale on a byte: space (32), tab (9),
newline (10), vertical tab (11), form feed (12), carriage return (13). -/
def isSpaceB (c : Nat) : Bool := c == 32 || (9 ≤ c && c ≤ 13)

/-- `std::toupper` in the C locale on a byte: lowercase ASCII letters
(97 to 122) are mapped down by 32, every other byte is unchanged. -/
def toUpperB (c : Nat) : Nat := if 97 ≤ c && c ≤ 122 then c - 32 else c

/-- `trim` of original.cpp, artifact2.cpp and part3.cpp: removes
leading and trailing whitespace.  The C++ computes the first
non-space index and the last non-space index and takes the substring
between them; this equals dropping a whitespace prefix and then a
whitespace suffix. -/
def trim (s : Str) : Str := List.rdropWhile isSpaceB (s.dropWhile isSpaceB)

/-- `toUpper` of the three files: applies toupper to every byte. -/
def toUpperS (s : Str) : Str := s.map toUpperB

/-- `normalizeCourseNumber` of artifact2.cpp and part3.cpp, also used
inline in the map variant of original.cpp: trim, then uppercase. -/
def normalizeCourseNumber (s : Str) : Str := toUpperS (trim s)

/-- Byte string of an ASCII string literal, for concrete inputs. -/
def bytes (s : String) : Str := s.data.map Char.toNat

/-- `operator<` on `std::string`: lexicographic comparison of the two
byte sequences, a strict prefix being smaller. -/
def ltb : Str → Str → Bool
  | [], [] => false
  | [], _ :: _ => true
  | _ :: _, [] => false
  | a :: as, b :: bs => if a < b then true else if b < a then false else ltb as bs

/-- The `Course` record of all variants: course number, title and the
ordered prerequisite list. -/
structure Course where
  courseNumber : Str
  title : Str
  prerequisites : List Str
deriving DecidableEq, Repr

/-- One round of the `std::getline(ss, field, comma)` loop the
loaders use to split a line: bytes are accumulated until a comma (44)
or the end of the line; a getline that starts at the end of the
stream fails, so a line ending in a comma yields no field after that
comma. -/
def splitGo : Str → Str → List Str
  | [], acc => [acc.reverse]
  | c :: rest, acc =>
    if c = 44 then acc.reverse :: (if rest = [] then [] else splitGo rest [])
    else splitGo rest (c :: acc)

/-- The sequence of fields the getline loop extracts from a line.  On
the empty line the first getline already fails and there is no field. -/
def splitFields (s : Str) : List Str :=
  if s = [] then [] else splitGo s []

/-- The per-line parsing of `loadCoursesFromCsv` in the map variant of
original.cpp: trim the line and skip it when blank, extract the first
two comma-separated fields and skip the line when either getline
fails, normalize the course number and trim the title and skip the
line when either is then empty; the remaining fields are normalized
and the non-empty ones kept, in order, as prerequisites. -/
def parseLine (rawLine : Str) : Option Course :=
  let line := trim rawLine
  if line = [] then none
  else
    match splitFields line with
    | [] => none
    | [_] => none
    | courseNumber :: title :: rest =>
      let num := toUpperS (trim courseNumber)
      let ttl := trim title
      if num = [] || ttl = [] then none
      else some ⟨num, ttl, (rest.map normalizeCourseNumber).filter (fun p => p ≠ [])⟩

/-- The catalog of the map variant: `std::unordered_map` keyed by the
normalized course number, modelled as an association list with
pairwise distinct keys. -/
abbrev Catalog := List (Str × Course)

/-- `temp[courseNumber] = c`: insert-or-replace into the map.  When
the key is present its value is replaced, otherwise a new binding is
added. -/
def mapInsert : Catalog → Str → Course → Catalog
  | [], k, v => [(k, v)]
  | (k2, v2) :: rest, k, v =>
    if k = k2 then (k, v) :: rest else (k2, v2) :: mapInsert rest k v

/-- `courses.find(key)` / `courses.at(key)`: point lookup in the map. -/
def mapFind : Catalog → Str → Option Course
  | [], _ => none
  | (k2, v2) :: rest, k => if k = k2 then some v2 else mapFind rest k

/-- One iteration of the read loop of `loadCoursesFromCsv` (map
variant): a line that parses is inserted into the temporary map under
its normalized course number, a skipped line leaves the map as it is. -/
def insertParsed (m : Catalog) (rawLine : Str) : Catalog :=
  match parseLine rawLine with
  | none => m
  | some c => mapInsert m c.courseNumber c

/-- The temporary map built by reading every line of the file. -/
def buildCatalog (fileLines : List Str) : Catalog :=
  fileLines.foldl insertParsed []

/-- `loadCoursesFromCsv` of the map variant of original.cpp.  The
source is `none` when `file.is_open()` is false: the function then
returns false and the caller's map is untouched.  Otherwise the lines
are parsed into a temporary map which is swapped in wholesale, and
the function returns true. -/
def loadCoursesFromCsv : Option (List Str) → Catalog → Bool × Catalog
  | none, current => (false, current)
  | some fileLines, _ => (true, buildCatalog fileLines)

/-- The key sequence `printCourseList` iterates over: all keys of the
map, sorted by `std::sort` with the `operator<` comparison.  A sort
against a strict order produces a rearrangement that is
non-decreasing under the reflexive closure of that order; `mergeSort`
with the complement of the reversed comparison realizes it. -/
def sortedKeys (m : Catalog) : List Str :=
  (m.map Prod.fst).mergeSort (fun a b => !ltb b a)

/-- `printCourseList` of the map variant: for each key in sorted
order, look the course up and print its number and title.  The output
is modelled as the list of printed (number, title) pairs. -/
def printCourseList (m : Catalog) : List (Str × Str) :=
  (sortedKeys m).filterMap (fun k => (mapFind m k).map (fun c => (c.courseNumber, c.title)))

/-- The prerequisite rendering loop of `printCourseDetails` in the
map variant and artifact2.cpp: each entry is printed, and a comma and
a space are printed after every entry but the last. -/
def joinCommaSpace : List Str → Str
  | [] => []
  | [p] => p
  | p :: q :: rest => p ++ [44, 32] ++ joinCommaSpace (q :: rest)

/-- `printCourseDetails` of the map variant of original.cpp and of
artifact2.cpp, in the case where the course was found: the course
number and title on one line, then the prerequisites line, which
holds the word None when the list is empty and otherwise the entries
separated by a comma and a space. -/
def printCourseDetails (c : Course) : List Str :=
  [c.courseNumber ++ [44, 32] ++ c.title,
   bytes "Prerequisites: " ++
     (if c.prerequisites = [] then bytes "None" else joinCommaSpace c.prerequisites)]

/-- Modelled from the spec: `format_detail(record)` as section 4.5
words it — one line with the identifier and title separated by a
comma and a space, then a Prerequisites line carrying None for an
empty sequence and otherwise the prerequisites joined by the
separator comma-space with no trailing separator. -/
def specFormatDetail (c : Course) : List Str :=
  [c.courseNumber ++ bytes ", " ++ c.title,
   bytes "Prerequisites: " ++
     (if c.prerequisites = [] then bytes "None"
      else List.intercalate (bytes ", ") c.prerequisites)]

/-- The detail rendering of `searchCourse` in the first variant of
original.cpp: the course number and title on one line, then a
Prerequisites line where each prerequisite is printed followed by a
single space, the trailing space included. -/
def searchCourseDetails (c : Course) : List Str :=
  [c.courseNumber ++ [44, 32] ++ c.title,
   bytes "Prerequisites: " ++
     (if c.prerequisites = [] then bytes "None"
      else (c.prerequisites.map (fun p => p ++ [32])).flatten)]

/-- The per-line parsing of `parseFile` in the first variant of
original.cpp: no trimming, no normalization, no skipping — a course
is built from the first two fields of every line, defaulted to the
empty string when the getline fails, with the remaining fields as
prerequisites. -/
def parseLineV1 (line : Str) : Course :=
  match splitFields line with
  | [] => ⟨[], [], []⟩
  | [num] => ⟨num, [], []⟩
  | num :: ttl :: rest => ⟨num, ttl, rest⟩

/-- Outcome of an open-then-parse in the first variant of
original.cpp: `openFile` prints an error and calls `exit(1)` when the
file cannot be opened, so a missing source terminates the process. -/
inductive LoadOutcomeV1 where
  | loaded (courses : List Course)
  | exitProcess
deriving DecidableEq, Repr

/-- `openFile` followed by `parseFile` in the first variant of
original.cpp.  The source is `none` when the file cannot be opened;
`openFile` then calls `exit(1)`. -/
def openAndParseV1 : Option (List Str) → LoadOutcomeV1
  | none => .exitProcess
  | some fileLines => .loaded (fileLines.map parseLineV1)

/-- The interactive state of the map variant of original.cpp: the
loaded map and the dataLoaded flag. -/
structure UIState where
  courses : Catalog
  dataLoaded : Bool
deriving DecidableEq, Repr

/-- One pass of the menu loop in `main` of the map variant of
original.cpp, after `displayMenu` produced `choice` (an unparsable or
empty input line already mapped to -1 there).  `source` is the file
the user names under choice 1.  The result is the state carried into
the next loop iteration, or `none` when the process returns, which
happens only under choice 9.  Choice 1 with a missing file keeps the
map and clears the flag; choices 2 and 3 print and keep the state,
whether or not the lookup or the load succeeded before; every other
choice prints an invalid-option message and keeps the state. -/
def menuStep (st : UIState) (choice : Int) (source : Option (List Str)) : Option UIState :=
  if choice = 1 then
    let r := loadCoursesFromCsv source st.courses
    some ⟨r.2, r.1⟩
  else if choice = 2 then some st
  else if choice = 3 then some st
  else if choice = 9 then none
  else some st

/-- The node tree of `CourseBST` in artifact2.cpp. -/
inductive BTree where
  | nil
  | node (left : BTree) (data : Course) (right : BTree)
deriving DecidableEq, Repr

/-- `CourseBST::insert` of artifact2.cpp: descend left on a smaller
course number, right on a greater one, and overwrite the node data
when the numbers are equal. -/
def bstInsert : BTree → Course → BTree
  | .nil, c => .node .nil c .nil
  | .node l d r, c =>
    if ltb c.courseNumber d.courseNumber then .node (bstInsert l c) d r
    else if ltb d.courseNumber c.courseNumber then .node l d (bstInsert r c)
    else .node l c r

/-- `CourseBST::search` of artifact2.cpp: equality first, then the
smaller side, else the greater side. -/
def bstSearch : BTree → Str → Option Course
  | .nil, _ => none
  | .node l d r, k =>
    if k = d.courseNumber then some d
    else if ltb k d.courseNumber then bstSearch l k
    else bstSearch r k

/-- `CourseBST::inOrderPrint` of artifact2.cpp, modelled as the
sequence of courses visited: left subtree, node, right subtree. -/
def inOrderPrint : BTree → List Course
  | .nil => []
  | .node l d r => inOrderPrint l ++ d :: inOrderPrint r

/-- Every course number in the tree satisfies the predicate. -/
def allKeys (p : Str → Bool) : BTree → Bool
  | .nil => true
  | .node l d r => p d.courseNumber && allKeys p l && allKeys p r

/-- The strict binary-search-tree ordering invariant: at every node,
every course number in the left subtree is lexicographically smaller
than the node's course number, and every one in the right subtree is
greater. -/
def isBST : BTree → Bool
  | .nil => true
  | .node l d r =>
    allKeys (fun k => ltb k d.courseNumber) l &&
    allKeys (fun k => ltb d.courseNumber k) r &&
    isBST l && isBST r

/-- The public mutating operations of `CourseBST`. -/
inductive BstOp where
  | ins (c : Course)
  | clr
deriving DecidableEq, Repr

/-- Apply one `CourseBST` operation. -/
def applyBstOp (t : BTree) : BstOp → BTree
  | .ins c => bstInsert t c
  | .clr => .nil

/-- Apply a sequence of `CourseBST` operations in order. -/
def applyBstOps (ops : List BstOp) (t : BTree) : BTree :=
  ops.foldl applyBstOp t

/-- The course a search for `k` ought to find after a sequence of
operations: the last course inserted with number `k` and not erased
by a later clear, if any. -/
def lastInserted (ops : List BstOp) (k : Str) : Option Course :=
  ops.foldl
    (fun acc op =>
      match op with
      | .ins c => if c.courseNumber = k then some c else acc
      | .clr => none)
    none

/-- The per-line parsing of `loadCoursesFromCsv` in artifact2.cpp:
like the map variant it trims the line, skips it when blank or when
either getline fails, normalizes the course number, trims the title
and keeps the non-empty normalized prerequisites — but it has no
emptiness check on the course number or the title. -/
def parseLineBst (rawLine : Str) : Option Course :=
  let line := trim rawLine
  if line = [] then none
  else
    match splitFields line with
    | [] => none
    | [_] => none
    | courseNumber :: title :: rest =>
      some ⟨normalizeCourseNumber courseNumber, trim title,
            (rest.map normalizeCourseNumber).filter (fun p => p ≠ [])⟩

/-- One iteration of the read loop of `loadCoursesFromCsv` in
artifact2.cpp: a line that parses is inserted into the tree, a
skipped line leaves it as it is. -/
def insertParsedBst (t : BTree) (rawLine : Str) : BTree :=
  match parseLineBst rawLine with
  | none => t
  | some c => bstInsert t c

/-- `loadCoursesFromCsv` of artifact2.cpp: a source that cannot be
opened returns false with the tree untouched; otherwise the tree is
cleared and every parsed line is inserted. -/
def loadCoursesBst : Option (List Str) → BTree → Bool × BTree
  | none, current => (false, current)
  | some fileLines, _ => (true, fileLines.foldl insertParsedBst .nil)

/-- A state of the SQLite database of part3.cpp: the rows of the
courses table (course_number, title) and of the prerequisites table
(course_number, prereq_number), in insertion order. -/
structure DbState where
  courses : List (Str × Str)
  prereqs : List (Str × Str)
deriving DecidableEq, Repr

/-- The course insert of part3.cpp, an INSERT OR REPLACE on the
courses table with `PRAGMA foreign_keys = ON`: a conflicting row with
the same primary key is deleted first — which cascades to the
prerequisites rows of that course — and the new row is appended.
With well-formed field values this statement itself succeeds; the
breakage a quote character causes in the concatenated SQL text is out
of scope of this model. -/
def insertCourseRow (db : DbState) (num ttl : Str) : DbState :=
  if db.courses.any (fun row => row.1 = num) then
    ⟨db.courses.filter (fun row => ¬row.1 = num) ++ [(num, ttl)],
     db.prereqs.filter (fun row => ¬row.1 = num)⟩
  else ⟨db.courses ++ [(num, ttl)], db.prereqs⟩

/-- The prerequisite loop of `loadCoursesFromCSV` in part3.cpp: each
normalized field, when non-empty, is inserted with a plain INSERT
into the prerequisites table; a pair already present violates the
primary key of that table, `execute` reports the SQL error, and the
loader returns false on the spot, keeping the rows inserted so far. -/
def insertPrereqRows (db : DbState) (num : Str) : List Str → Bool × DbState
  | [] => (true, db)
  | p :: ps =>
    if p = [] then insertPrereqRows db num ps
    else if (num, p) ∈ db.prereqs then (false, db)
    else insertPrereqRows ⟨db.courses, db.prereqs ++ [(num, p)]⟩ num ps

/-- One line of the part3.cpp load loop: blank lines and lines with a
failed getline are skipped, the course number is normalized and the
title trimmed — with no emptiness check — then the course row and the
prerequisite rows are inserted in place. -/
def loadLineDb (db : DbState) (rawLine : Str) : Bool × DbState :=
  let line := trim rawLine
  if line = [] then (true, db)
  else
    match splitFields line with
    | [] => (true, db)
    | [_] => (true, db)
    | courseNum :: title :: rest =>
      let num := normalizeCourseNumber courseNum
      let db1 := insertCourseRow db num (trim title)
      insertPrereqRows db1 num (rest.map normalizeCourseNumber)

/-- The line loop of part3.cpp: a failing insert aborts the load at
once, leaving the rows already inserted in place. -/
def loadLinesDb : List Str → DbState → Bool × DbState
  | [], db => (true, db)
  | l :: ls, db =>
    match loadLineDb db l with
    | (false, db2) => (false, db2)
    | (true, db2) => loadLinesDb ls db2

/-- `loadCoursesFromCSV` of part3.cpp: an unopenable file returns
false with the database untouched; otherwise both tables are cleared
by the two DELETE statements and the lines are loaded in place, with
no temporary and no transaction. -/
def loadCoursesFromCSV : Option (List Str) → DbState → Bool × DbState
  | none, current => (false, current)
  | some fileLines, _ => loadLinesDb fileLines ⟨[], []⟩

end CoursePlanner

namespace CoursePlanner

/-! ### Order facts about the std::string comparison -/

theorem ltb_irrefl (s : Str) : ltb s s = false := by
  induction s with
  | nil => rfl
  | cons a as ih => simp [ltb, ih]

theorem ltb_trans : ∀ {a b c : Str}, ltb a b = true → ltb b c = true → ltb a c = true
  | [], [], _, h1, _ => by simp [ltb] at h1
  | [], _ :: _, [], _, h2 => by simp [ltb] at h2
  | [], _ :: _, _ :: _, _, _ => rfl
  | _ :: _, [], _, h1, _ => by simp [ltb] at h1
  | _ :: _, _ :: _, [], _, h2 => by simp [ltb] at h2
  | x :: xs, y :: ys, z :: zs, h1, h2 => by
      simp only [ltb] at h1 h2 ⊢
      rcases Nat.lt_trichotomy x y with hxy | hxy | hxy
      · rcases Nat.lt_trichotomy y z with hyz | hyz | hyz
        · simp [Nat.lt_trans hxy hyz]
        · subst hyz; simp [hxy]
        · rw [if_neg (Nat.lt_asymm hyz), if_pos hyz] at h2; exact absurd h2 (by simp)
      · subst hxy
        rcases Nat.lt_trichotomy x z with hxz | hxz | hxz
        · simp [hxz]
        · subst hxz
          rw [if_neg (Nat.lt_irrefl x), if_neg (Nat.lt_irrefl x)] at h1 h2 ⊢
          exact ltb_trans h1 h2
        · rw [if_neg (Nat.lt_asymm hxz), if_pos hxz] at h2; exact absurd h2 (by simp)
      · rw [if_neg (Nat.lt_asymm hxy), if_pos hxy] at h1; exact absurd h1 (by simp)

theorem ltb_eq_of_both_false : ∀ {a b : Str}, ltb a b = false → ltb b a = false → a = b
  | [], [], _, _ => rfl
  | [], _ :: _, h1, _ => by simp [ltb] at h1
  | _ :: _, [], _, h2 => by simp [ltb] at h2
  | x :: xs, y :: ys, h1, h2 => by
      simp only [ltb] at h1 h2
      rcases Nat.lt_trichotomy x y with h | h | h
      · rw [if_pos h] at h1; exact absurd h1 (by simp)
      · subst h
        rw [if_neg (Nat.lt_irrefl x), if_neg (Nat.lt_irrefl x)] at h1 h2
        rw [ltb_eq_of_both_false h1 h2]
      · rw [if_neg (Nat.lt_asymm h), if_pos h] at h2; exact absurd h2 (by simp)

theorem ltb_asymm {a b : Str} (h : ltb a b = true) : ltb b a = false := by
  by_contra hc
  have hba : ltb b a = true := by
    cases hx : ltb b a
    · exact absurd hx hc
    · rfl
  have := ltb_trans h hba
  rw [ltb_irrefl] at this
  exact absurd this (by simp)

theorem leb_trans {a b c : Str} (h1 : ltb b a = false) (h2 : ltb c b = false) :
    ltb c a = false := by
  cases hab : ltb a b
  · have hba := ltb_eq_of_both_false hab h1
    subst hba
    exact h2
  · cases hca : ltb c a
    · rfl
    · have := ltb_trans hca hab
      rw [this] at h2
      exact absurd h2 (by simp)

theorem leb_total (a b : Str) : (!ltb b a || !ltb a b) = true := by
  cases hab : ltb a b
  · simp
  · cases hba : ltb b a
    · simp
    · have := ltb_trans hab hba
      rw [ltb_irrefl] at this
      exact absurd this (by simp)

end CoursePlanner

namespace CoursePlanner

/-! ### Normalization -/

theorem isSpaceB_toUpperB (c : Nat) : isSpaceB (toUpperB c) = isSpaceB c := by
  by_cases h : 97 ≤ c ∧ c ≤ 122
  · have e1 : toUpperB c = c - 32 := by
      unfold toUpperB
      rw [if_pos]
      simp [h.1, h.2]
    rw [e1]
    have h1 : isSpaceB (c - 32) = false := by
      simp only [isSpaceB, Bool.or_eq_false_iff, beq_eq_false_iff_ne, ne_eq,
        Bool.and_eq_false_iff, decide_eq_false_iff_not, not_le]
      omega
    have h2 : isSpaceB c = false := by
      simp only [isSpaceB, Bool.or_eq_false_iff, beq_eq_false_iff_ne, ne_eq,
        Bool.and_eq_false_iff, decide_eq_false_iff_not, not_le]
      omega
    rw [h1, h2]
  · have e1 : toUpperB c = c := by
      unfold toUpperB
      rw [if_neg]
      simp only [Bool.and_eq_true, decide_eq_true_eq]
      exact h
    rw [e1]

theorem toUpperB_toUpperB (c : Nat) : toUpperB (toUpperB c) = toUpperB c := by
  by_cases h : 97 ≤ c ∧ c ≤ 122
  · have e1 : toUpperB c = c - 32 := by
      unfold toUpperB
      rw [if_pos]
      simp [h.1, h.2]
    rw [e1]
    unfold toUpperB
    rw [if_neg]
    simp only [Bool.and_eq_true, decide_eq_true_eq, not_and, not_le]
    omega
  · have e1 : toUpperB c = c := by
      unfold toUpperB
      rw [if_neg]
      simp only [Bool.and_eq_true, decide_eq_true_eq]
      exact h
    rw [e1, e1]

theorem dropWhile_rdropWhile_self {p : Nat → Bool} {y : Str} (h : y.dropWhile p = y) :
    (List.rdropWhile p y).dropWhile p = List.rdropWhile p y := by
  rw [List.dropWhile_eq_self_iff]
  intro hl
  have hpre : List.rdropWhile p y <+: y := List.rdropWhile_prefix p y
  have hget := hpre.getElem (n := 0) hl
  have h0 : 0 < y.length := lt_of_lt_of_le hl hpre.length_le
  rw [List.dropWhile_eq_self_iff] at h
  have := h h0
  simpa [List.get_eq_getElem, hget] using this

theorem trim_trim (s : Str) : trim (trim s) = trim s := by
  unfold trim
  rw [dropWhile_rdropWhile_self (List.dropWhile_idempotent _ _), List.rdropWhile_idempotent]

theorem isSpaceB_comp_toUpperB : (isSpaceB ∘ toUpperB) = isSpaceB := by
  funext c
  exact isSpaceB_toUpperB c

theorem dropWhile_toUpperS (s : Str) :
    (toUpperS s).dropWhile isSpaceB = toUpperS (s.dropWhile isSpaceB) := by
  unfold toUpperS
  rw [List.dropWhile_map, isSpaceB_comp_toUpperB]

theorem rdropWhile_toUpperS (s : Str) :
    List.rdropWhile isSpaceB (toUpperS s) = toUpperS (List.rdropWhile isSpaceB s) := by
  unfold List.rdropWhile toUpperS
  rw [← List.map_reverse, List.dropWhile_map, isSpaceB_comp_toUpperB, ← List.map_reverse]

theorem trim_toUpperS (s : Str) : trim (toUpperS s) = toUpperS (trim s) := by
  unfold trim
  rw [dropWhile_toUpperS, rdropWhile_toUpperS]

/-- C7: normalize, being trim followed by ASCII uppercasing, is
idempotent: normalizing an already normalized byte string changes
nothing. -/
theorem c7_normalize_idempotent (x : Str) :
    normalizeCourseNumber (normalizeCourseNumber x) = normalizeCourseNumber x := by
  unfold normalizeCourseNumber
  rw [trim_toUpperS, trim_trim]
  unfold toUpperS
  rw [List.map_map]
  congr 1
  funext c
  exact toUpperB_toUpperB c

end CoursePlanner

namespace CoursePlanner

/-! ### Load behaviour: C1, C6, C8, C4, C9 -/

/-- C1 counterexample: the loader of part3.cpp deletes both tables
and then inserts in place; on a one-line source whose record lists
the same prerequisite twice, the second prerequisite insert violates
the primary key of the prerequisites table and the loader returns
false mid-load — the previously loaded catalog is gone and the
database holds only part of the source's record, so a failed load
does leave a partial catalog observable. -/
theorem c1_counterexample_db_partial_load :
    loadCoursesFromCSV (some [bytes "CS101,Intro,CS100,CS100"])
        ⟨[(bytes "CS250", bytes "Old Title")], []⟩ =
      (false, ⟨[(bytes "CS101", bytes "Intro")], [(bytes "CS101", bytes "CS100")]⟩) := by
  decide

/-- C1 amended: in every variant a load whose source cannot be opened
returns a NotFound-style failure and leaves the catalog exactly as it
was; in the map variant, which builds into a temporary and swaps only
on success, every failed load whatsoever leaves the catalog
untouched; the database variant however clears its tables and inserts
in place, and a mid-load SQL failure leaves a partial catalog. -/
theorem c1_amended_open_failure_atomic (source : Option (List Str)) (current : Catalog)
    (tree : BTree) (db : DbState) (hopen : source = none) :
    loadCoursesFromCsv source current = (false, current) ∧
      loadCoursesBst source tree = (false, tree) ∧
      loadCoursesFromCSV source db = (false, db) ∧
      ∀ (src2 : Option (List Str)) (cat2 : Catalog),
        (loadCoursesFromCsv src2 cat2).1 = false → (loadCoursesFromCsv src2 cat2).2 = cat2 := by
  subst hopen
  refine ⟨rfl, rfl, rfl, ?_⟩
  intro src2 cat2 h
  cases src2 with
  | none => rfl
  | some fileLines => simp [loadCoursesFromCsv] at h

/-- Witness for the amended C1 at a missing source, a one-entry map
catalog, the empty tree and the empty database. -/
theorem c1_amended_open_failure_atomic_witness :
    loadCoursesFromCsv none [(bytes "CS101", ⟨bytes "CS101", bytes "Intro", []⟩)] =
      (false, [(bytes "CS101", ⟨bytes "CS101", bytes "Intro", []⟩)]) :=
  (c1_amended_open_failure_atomic none
    [(bytes "CS101", ⟨bytes "CS101", bytes "Intro", []⟩)] .nil ⟨[], []⟩ rfl).1

/-- C6 counterexample: `parseFile` of the first variant of
original.cpp never skips a line — on the one-field line CS101 the
title getline fails, the title stays the empty string, and a record
is stored anyway, so in that cited parser a line with fewer than two
comma-separated fields does not go unstored. -/
theorem c6_counterexample_v1_stores_short_line :
    openAndParseV1 (some [bytes "CS101"]) =
      LoadOutcomeV1.loaded [⟨bytes "CS101", [], []⟩] := by
  decide

/-- C6 amended: in the map variant of original.cpp and in
artifact2.cpp a line whose getline splitting yields fewer than two
fields parses to no record and its insertion step changes nothing,
and a load whose source opened reports success whatever the lines
hold; `parseFile` of the first variant of original.cpp however stores
a record for every line, a missing title field defaulting to the
empty string. -/
theorem c6_amended_short_lines_skipped (rawLine : Str)
    (hshort : (splitFields (trim rawLine)).length < 2) :
    parseLine rawLine = none ∧ parseLineBst rawLine = none ∧
      (∀ m : Catalog, insertParsed m rawLine = m) ∧
      (∀ t : BTree, insertParsedBst t rawLine = t) ∧
      (∀ (fileLines : List Str) (current : Catalog),
        (loadCoursesFromCsv (some fileLines) current).1 = true) ∧
      ∀ (fileLines : List Str) (tree : BTree),
        (loadCoursesBst (some fileLines) tree).1 = true := by
  have hp : parseLine rawLine = none := by
    unfold parseLine
    by_cases h0 : trim rawLine = []
    · simp [h0]
    · simp only [if_neg h0]
      rcases hsf : splitFields (trim rawLine) with _ | ⟨a, _ | ⟨b, rest⟩⟩
      · rfl
      · rfl
      · rw [hsf] at hshort
        simp only [List.length_cons] at hshort
        omega
  have hpb : parseLineBst rawLine = none := by
    unfold parseLineBst
    by_cases h0 : trim rawLine = []
    · simp [h0]
    · simp only [if_neg h0]
      rcases hsf : splitFields (trim rawLine) with _ | ⟨a, _ | ⟨b, rest⟩⟩
      · rfl
      · rfl
      · rw [hsf] at hshort
        simp only [List.length_cons] at hshort
        omega
  refine ⟨hp, hpb, ?_, ?_, ?_, ?_⟩
  · intro m
    unfold insertParsed
    rw [hp]
  · intro t
    unfold insertParsedBst
    rw [hpb]
  · intro fileLines current
    rfl
  · intro fileLines tree
    rfl

/-- Witness for the amended C6 at a line with a single field. -/
theorem c6_amended_short_lines_skipped_witness :
    parseLine (bytes "CS499 Capstone no comma") = none ∧
      parseLineBst (bytes "CS499 Capstone no comma") = none :=
  ⟨(c6_amended_short_lines_skipped (bytes "CS499 Capstone no comma") (by decide)).1,
   (c6_amended_short_lines_skipped (bytes "CS499 Capstone no comma") (by decide)).2.1⟩

/-- C8: loading the same openable source twice yields exactly the
catalog a single load yields, because a successful load replaces the
previous catalog wholesale. -/
theorem c8_reload_same_source (source : Option (List Str)) (fileLines : List Str)
    (current : Catalog) (hopen : source = some fileLines) :
    (loadCoursesFromCsv source (loadCoursesFromCsv source current).2).2 =
      (loadCoursesFromCsv source current).2 := by
  subst hopen
  rfl

/-- Witness for C8 at a two-line source. -/
theorem c8_reload_same_source_witness :
    (loadCoursesFromCsv (some [bytes "CS101, Intro to CS,CS100", bytes "CS100,Fundamentals"])
        (loadCoursesFromCsv (some [bytes "CS101, Intro to CS,CS100", bytes "CS100,Fundamentals"]) []).2).2 =
      (loadCoursesFromCsv (some [bytes "CS101, Intro to CS,CS100", bytes "CS100,Fundamentals"]) []).2 :=
  c8_reload_same_source _ [bytes "CS101, Intro to CS,CS100", bytes "CS100,Fundamentals"] [] rfl

/-- C4: two lines whose course numbers normalize to the same key
build a catalog with exactly one entry for that key, and the entry
carries the whole record of the later line. -/
theorem c4_last_write_wins (line1 line2 : Str) (r1 r2 : Course)
    (h1 : parseLine line1 = some r1) (h2 : parseLine line2 = some r2)
    (hkey : r1.courseNumber = r2.courseNumber) :
    buildCatalog [line1, line2] = [(r2.courseNumber, r2)] := by
  unfold buildCatalog
  simp only [List.foldl_cons, List.foldl_nil]
  unfold insertParsed
  rw [h1, h2]
  simp [mapInsert, hkey]

/-- Witness for C4: the identifiers of the two lines differ only in
case and surrounding whitespace. -/
theorem c4_last_write_wins_witness :
    buildCatalog [bytes "cs101,Intro to CS", bytes " CS101 ,Advanced Topics,CS100"] =
      [(bytes "CS101", ⟨bytes "CS101", bytes "Advanced Topics", [bytes "CS100"]⟩)] :=
  c4_last_write_wins _ _ ⟨bytes "CS101", bytes "Intro to CS", []⟩
    ⟨bytes "CS101", bytes "Advanced Topics", [bytes "CS100"]⟩
    (by decide) (by decide) (by decide)

/-- C9 counterexample: in the first variant of original.cpp an
unopenable source is fatal — `openFile` prints an error and calls
`exit(1)` — so there is an error occurrence that terminates the
process instead of returning to the menu. -/
theorem c9_counterexample_v1_exits : openAndParseV1 none = LoadOutcomeV1.exitProcess := rfl

/-- C9 amended: in the enhanced map variant of original.cpp the menu
loop leaves the process only under menu choice 9; a failed load, a
failed lookup, a malformed line or an invalid option all continue to
the next menu round. -/
theorem c9_amended_loop_exits_only_on_nine (st : UIState) (choice : Int)
    (source : Option (List Str)) :
    menuStep st choice source = none ↔ choice = 9 := by
  unfold menuStep
  split_ifs <;> simp_all

end CoursePlanner

namespace CoursePlanner

/-! ### Reporting: C5 -/

theorem joinCommaSpace_eq_intercalate (ps : List Str) :
    joinCommaSpace ps = List.intercalate [44, 32] ps := by
  induction ps with
  | nil => rfl
  | cons p rest ih =>
    cases rest with
    | nil => simp [joinCommaSpace, List.intercalate, List.intersperse]
    | cons q rest2 =>
      rw [joinCommaSpace]
      rw [ih]
      simp [List.intercalate, List.intersperse]

/-- C5 counterexample: the detail rendering of `searchCourse` in the
first variant of original.cpp separates the prerequisites with a
single space and prints a trailing space, so on a record with two
prerequisites it differs from the claimed comma-space joining with no
trailing separator. -/
theorem c5_counterexample_search_course :
    searchCourseDetails ⟨bytes "CS200", bytes "Data Structures", [bytes "CS100", bytes "CS101"]⟩ ≠
      specFormatDetail ⟨bytes "CS200", bytes "Data Structures", [bytes "CS100", bytes "CS101"]⟩ := by
  decide

/-- C5 amended: `printCourseDetails` of the map variant of
original.cpp and of artifact2.cpp renders a found record exactly as
the spec words it — identifier comma-space title on the first line,
then a Prerequisites line holding None for an empty sequence and
otherwise the prerequisites joined by comma-space with no trailing
separator.  The renderings of `searchCourse` in the first variant and
of part3.cpp instead separate the prerequisites with single spaces
and print a trailing space. -/
theorem c5_amended_print_course_details (c : Course) :
    printCourseDetails c = specFormatDetail c := by
  unfold printCourseDetails specFormatDetail
  rw [joinCommaSpace_eq_intercalate]
  rfl

end CoursePlanner

namespace CoursePlanner

/-! ### Parser invariants: C3 -/

/-- A record the map-variant parser accepts has a non-empty
normalized course number and a non-empty trimmed title. -/
theorem parseLine_fields_nonempty {l : Str} {r : Course} (h : parseLine l = some r) :
    r.courseNumber ≠ [] ∧ r.title ≠ [] := by
  unfold parseLine at h
  by_cases h0 : trim l = []
  · simp [h0] at h
  · simp only [if_neg h0] at h
    rcases hsf : splitFields (trim l) with _ | ⟨a, _ | ⟨b, rest⟩⟩ <;> rw [hsf] at h
    · exact Option.noConfusion h
    · exact Option.noConfusion h
    · have h2 : (if (decide (toUpperS (trim a) = []) || decide (trim b = [])) = true then
            (none : Option Course)
          else some ⟨toUpperS (trim a), trim b,
            (rest.map normalizeCourseNumber).filter (fun p => p ≠ [])⟩) = some r := h
      split at h2
      · exact Option.noConfusion h2
      · rename_i hc
        simp only [Bool.or_eq_true, decide_eq_true_eq, not_or] at hc
        obtain rfl : (⟨toUpperS (trim a), trim b,
            (rest.map normalizeCourseNumber).filter (fun p => p ≠ [])⟩ : Course) = r :=
          Option.some_injective _ h2
        exact ⟨hc.1, hc.2⟩

/-- Membership after an insert-or-replace: the element was already
in the map or is the inserted binding. -/
theorem mem_mapInsert {m : Catalog} {k : Str} {v : Course} {x : Str × Course}
    (h : x ∈ mapInsert m k v) : x ∈ m ∨ x = (k, v) := by
  induction m with
  | nil =>
    simp only [mapInsert, List.mem_singleton] at h
    exact Or.inr h
  | cons kv rest ih =>
    obtain ⟨k2, v2⟩ := kv
    unfold mapInsert at h
    by_cases he : k = k2
    · rw [if_pos he] at h
      rcases List.mem_cons.mp h with h1 | h1
      · exact Or.inr h1
      · exact Or.inl (List.mem_cons_of_mem _ h1)
    · rw [if_neg he] at h
      rcases List.mem_cons.mp h with h1 | h1
      · exact Or.inl (by simp [h1])
      · rcases ih h1 with h2 | h2
        · exact Or.inl (List.mem_cons_of_mem _ h2)
        · exact Or.inr h2

/-- Every binding the load loop produces beyond the initial map comes
from a line the parser accepted, keyed by the course number of the
parsed record. -/
theorem mem_foldl_insertParsed {fileLines : List Str} {m : Catalog} {x : Str × Course}
    (h : x ∈ fileLines.foldl insertParsed m) :
    x ∈ m ∨ ∃ l ∈ fileLines, parseLine l = some x.2 ∧ x.1 = x.2.courseNumber := by
  induction fileLines generalizing m with
  | nil => exact Or.inl h
  | cons l ls ih =>
    rw [List.foldl_cons] at h
    rcases ih h with h1 | h1
    · unfold insertParsed at h1
      cases hp : parseLine l with
      | none =>
        rw [hp] at h1
        exact Or.inl h1
      | some c =>
        rw [hp] at h1
        rcases mem_mapInsert h1 with h2 | h2
        · exact Or.inl h2
        · refine Or.inr ⟨l, List.mem_cons_self l ls, ?_⟩
          rw [h2]
          exact ⟨hp, rfl⟩
    · obtain ⟨l2, hl2, hrest⟩ := h1
      exact Or.inr ⟨l2, List.mem_cons_of_mem _ hl2, hrest⟩

/-- C3 counterexample: the loader of artifact2.cpp has no emptiness
check, so loading the line that starts with a comma stores a record
whose normalized identifier is the empty string: the claim fails on
the binary-search-tree variant it cites. -/
theorem c3_counterexample_bst_stores_empty_id :
    bstSearch (loadCoursesBst (some [bytes ",Algebra"]) .nil).2 [] =
      some ⟨[], bytes "Algebra", []⟩ := by
  decide

/-- C3 amended: in the map variant of original.cpp the parser does
reject a line whose identifier normalizes to the empty string or
whose title trims to the empty string, so every record a load stores
there has a non-empty normalized identifier and a non-empty title;
the binary-search-tree and database variants have no such check and
can store a record with an empty identifier or title. -/
theorem c3_amended_map_records_nonempty (fileLines : List Str) (k : Str) (r : Course)
    (hmem : (k, r) ∈ buildCatalog fileLines) :
    r.courseNumber ≠ [] ∧ r.title ≠ [] := by
  unfold buildCatalog at hmem
  rcases mem_foldl_insertParsed hmem with h | ⟨l, _, hp, _⟩
  · simp at h
  · exact parseLine_fields_nonempty hp

/-- Witness for the amended C3 at a one-line source. -/
theorem c3_amended_map_records_nonempty_witness :
    (⟨bytes "CS101", bytes "Intro", []⟩ : Course).courseNumber ≠ [] ∧
      (⟨bytes "CS101", bytes "Intro", []⟩ : Course).title ≠ [] :=
  c3_amended_map_records_nonempty [bytes "cs101,Intro"] (bytes "CS101")
    ⟨bytes "CS101", bytes "Intro", []⟩ (by decide)

end CoursePlanner

namespace CoursePlanner

/-! ### Sorted enumeration of the map catalog: C2 -/

/-- Key membership after an insert-or-replace. -/
theorem mem_keys_mapInsert {m : Catalog} {k k2 : Str} {v : Course} :
    k2 ∈ (mapInsert m k v).map Prod.fst ↔ k2 = k ∨ k2 ∈ m.map Prod.fst := by
  induction m with
  | nil => simp [mapInsert]
  | cons kv rest ih =>
    obtain ⟨k3, v3⟩ := kv
    unfold mapInsert
    by_cases he : k = k3
    · subst he
      rw [if_pos rfl]
      simp only [List.map_cons, List.mem_cons]
      tauto
    · rw [if_neg he]
      simp only [List.map_cons, List.mem_cons, ih]
      tauto

/-- Insert-or-replace keeps the keys pairwise distinct. -/
theorem nodup_keys_mapInsert {m : Catalog} {k : Str} {v : Course}
    (h : (m.map Prod.fst).Nodup) : ((mapInsert m k v).map Prod.fst).Nodup := by
  induction m with
  | nil => simp [mapInsert]
  | cons kv rest ih =>
    obtain ⟨k3, v3⟩ := kv
    simp only [List.map_cons, List.nodup_cons] at h
    unfold mapInsert
    by_cases he : k = k3
    · subst he
      rw [if_pos rfl]
      simp only [List.map_cons, List.nodup_cons]
      exact h
    · rw [if_neg he]
      simp only [List.map_cons, List.nodup_cons]
      refine ⟨?_, ih h.2⟩
      intro hmem
      rcases mem_keys_mapInsert.mp hmem with h1 | h1
      · exact he h1.symm
      · exact h.1 h1

/-- The load loop keeps the keys pairwise distinct. -/
theorem nodup_keys_foldl {fileLines : List Str} {m : Catalog}
    (h : (m.map Prod.fst).Nodup) :
    ((fileLines.foldl insertParsed m).map Prod.fst).Nodup := by
  induction fileLines generalizing m with
  | nil => exact h
  | cons l ls ih =>
    rw [List.foldl_cons]
    apply ih
    unfold insertParsed
    cases hp : parseLine l with
    | none => exact h
    | some c => exact nodup_keys_mapInsert h

/-- The keys after the load loop are the initial keys together with
the normalized course numbers of the accepted lines. -/
theorem mem_keys_foldl {fileLines : List Str} {m : Catalog} {k : Str} :
    k ∈ (fileLines.foldl insertParsed m).map Prod.fst ↔
      k ∈ m.map Prod.fst ∨
        k ∈ (fileLines.filterMap parseLine).map Course.courseNumber := by
  induction fileLines generalizing m with
  | nil => simp
  | cons l ls ih =>
    rw [List.foldl_cons, ih]
    unfold insertParsed
    cases hp : parseLine l with
    | none => simp [List.filterMap_cons, hp]
    | some c =>
      simp only [List.filterMap_cons, hp, List.map_cons, List.mem_cons, mem_keys_mapInsert]
      tauto

/-- A key of the map is found, and the found record is bound to it. -/
theorem mapFind_mem {m : Catalog} {k : Str} (h : k ∈ m.map Prod.fst) :
    ∃ c, mapFind m k = some c ∧ (k, c) ∈ m := by
  induction m with
  | nil => simp at h
  | cons kv rest ih =>
    obtain ⟨k2, v2⟩ := kv
    unfold mapFind
    by_cases he : k = k2
    · subst he
      exact ⟨v2, by simp⟩
    · rw [if_neg he]
      simp only [List.map_cons, List.mem_cons] at h
      rcases h with h | h
      · exact absurd h he
      · obtain ⟨c, hc1, hc2⟩ := ih h
        exact ⟨c, hc1, List.mem_cons_of_mem _ hc2⟩

/-- A filterMap whose function succeeds on every element is a map. -/
theorem filterMap_eq_map_of_forall {α β : Type} {l : List α} {f : α → Option β} {g : α → β}
    (h : ∀ x ∈ l, f x = some (g x)) : l.filterMap f = l.map g := by
  induction l with
  | nil => rfl
  | cons a l2 ih =>
    rw [List.filterMap_cons_some (h a (List.mem_cons_self a l2)), List.map_cons,
      ih fun x hx => h x (List.mem_cons_of_mem _ hx)]

/-- Every record the load stores is keyed by its own course number. -/
theorem buildCatalog_snd_key {fileLines : List Str} {x : Str × Course}
    (h : x ∈ buildCatalog fileLines) : x.2.courseNumber = x.1 := by
  unfold buildCatalog at h
  rcases mem_foldl_insertParsed h with h1 | ⟨_, _, _, hk⟩
  · simp at h1
  · exact hk.symm


end CoursePlanner

namespace CoursePlanner

/-! ### The binary search tree of artifact2.cpp: C10 -/

/-- Insert keeps a bound satisfied by every key and by the new key. -/
theorem allKeys_bstInsert {p : Str → Bool} {t : BTree} {c : Course}
    (ht : allKeys p t = true) (hc : p c.courseNumber = true) :
    allKeys p (bstInsert t c) = true := by
  induction t with
  | nil => simp [bstInsert, allKeys, hc]
  | node l d r ihl ihr =>
    simp only [allKeys, Bool.and_eq_true] at ht
    obtain ⟨⟨hd, hl⟩, hr⟩ := ht
    unfold bstInsert
    by_cases h1 : ltb c.courseNumber d.courseNumber = true
    · rw [if_pos h1]
      simp only [allKeys, Bool.and_eq_true]
      exact ⟨⟨hd, ihl hl⟩, hr⟩
    · rw [if_neg h1]
      by_cases h2 : ltb d.courseNumber c.courseNumber = true
      · rw [if_pos h2]
        simp only [allKeys, Bool.and_eq_true]
        exact ⟨⟨hd, hl⟩, ihr hr⟩
      · rw [if_neg h2]
        simp only [allKeys, Bool.and_eq_true]
        exact ⟨⟨hc, hl⟩, hr⟩

/-- `CourseBST::insert` preserves the strict ordering invariant. -/
theorem isBST_bstInsert {t : BTree} {c : Course} (ht : isBST t = true) :
    isBST (bstInsert t c) = true := by
  induction t with
  | nil => simp [bstInsert, isBST, allKeys]
  | node l d r ihl ihr =>
    simp only [isBST, Bool.and_eq_true] at ht
    obtain ⟨⟨⟨hal, har⟩, hbl⟩, hbr⟩ := ht
    unfold bstInsert
    by_cases h1 : ltb c.courseNumber d.courseNumber = true
    · rw [if_pos h1]
      simp only [isBST, Bool.and_eq_true]
      exact ⟨⟨⟨allKeys_bstInsert hal h1, har⟩, ihl hbl⟩, hbr⟩
    · rw [if_neg h1]
      by_cases h2 : ltb d.courseNumber c.courseNumber = true
      · rw [if_pos h2]
        simp only [isBST, Bool.and_eq_true]
        exact ⟨⟨⟨hal, allKeys_bstInsert har h2⟩, hbl⟩, ihr hbr⟩
      · rw [if_neg h2]
        have h1f : ltb c.courseNumber d.courseNumber = false := by
          simpa using h1
        have h2f : ltb d.courseNumber c.courseNumber = false := by
          simpa using h2
        have heq : c.courseNumber = d.courseNumber := ltb_eq_of_both_false h1f h2f
        simp only [isBST, Bool.and_eq_true, heq]
        exact ⟨⟨⟨hal, har⟩, hbl⟩, hbr⟩

/-- Search after an insert: the inserted key is found with the new
record, every other key is found as before. -/
theorem bstSearch_bstInsert (t : BTree) (c : Course) (k : Str) :
    bstSearch (bstInsert t c) k =
      if k = c.courseNumber then some c else bstSearch t k := by
  induction t with
  | nil =>
    simp only [bstInsert, bstSearch]
    by_cases hk : k = c.courseNumber
    · rw [if_pos hk, if_pos hk]
    · rw [if_neg hk, if_neg hk]
      split <;> rfl
  | node l d r ihl ihr =>
    unfold bstInsert
    by_cases h1 : ltb c.courseNumber d.courseNumber = true
    · rw [if_pos h1]
      by_cases hk : k = d.courseNumber
      · have hkc : k ≠ c.courseNumber := by
          intro he
          rw [he] at hk
          rw [hk] at h1
          rw [ltb_irrefl] at h1
          exact absurd h1 (by simp)
        simp only [bstSearch]
        rw [if_pos hk, if_neg hkc, if_pos hk]
      · by_cases h2 : ltb k d.courseNumber = true
        · simp only [bstSearch]
          rw [if_neg hk, if_pos h2, ihl, if_neg hk, if_pos h2]
        · have hkc : k ≠ c.courseNumber := fun he => h2 (he ▸ h1)
          simp only [bstSearch]
          rw [if_neg hk, if_neg h2, if_neg hkc, if_neg hk, if_neg h2]
    · rw [if_neg h1]
      by_cases h2 : ltb d.courseNumber c.courseNumber = true
      · rw [if_pos h2]
        by_cases hk : k = d.courseNumber
        · have hkc : k ≠ c.courseNumber := by
            intro he
            rw [he] at hk
            rw [← hk] at h2
            rw [ltb_irrefl] at h2
            exact absurd h2 (by simp)
          simp only [bstSearch]
          rw [if_pos hk, if_neg hkc, if_pos hk]
        · by_cases h3 : ltb k d.courseNumber = true
          · have hkc : k ≠ c.courseNumber := by
              intro he
              rw [he] at h3
              have := ltb_trans h2 h3
              rw [ltb_irrefl] at this
              exact absurd this (by simp)
            simp only [bstSearch]
            rw [if_neg hk, if_pos h3, if_neg hkc, if_neg hk, if_pos h3]
          · simp only [bstSearch]
            rw [if_neg hk, if_neg h3, ihr, if_neg hk, if_neg h3]
      · rw [if_neg h2]
        have h1f : ltb c.courseNumber d.courseNumber = false := by simpa using h1
        have h2f : ltb d.courseNumber c.courseNumber = false := by simpa using h2
        have heq : c.courseNumber = d.courseNumber := ltb_eq_of_both_false h1f h2f
        simp only [bstSearch]
        by_cases hk : k = c.courseNumber
        · simp only [if_pos hk]
        · have hkd : ¬k = d.courseNumber := heq ▸ hk
          simp only [if_neg hk, if_neg hkd, heq]

/-- Unrolling a trailing operation. -/
theorem applyBstOps_append (ops : List BstOp) (op : BstOp) (t : BTree) :
    applyBstOps (ops ++ [op]) t = applyBstOp (applyBstOps ops t) op := by
  unfold applyBstOps
  rw [List.foldl_append]
  rfl

/-- Unrolling a trailing operation in the search specification. -/
theorem lastInserted_append (ops : List BstOp) (op : BstOp) (k : Str) :
    lastInserted (ops ++ [op]) k =
      match op with
      | .ins c => if c.courseNumber = k then some c else lastInserted ops k
      | .clr => none := by
  unfold lastInserted
  rw [List.foldl_append]
  rfl

/-- Search over any operation sequence from the empty tree finds
exactly the last record inserted under the key after the last clear. -/
theorem bstSearch_applyBstOps (ops : List BstOp) (k : Str) :
    bstSearch (applyBstOps ops .nil) k = lastInserted ops k := by
  induction ops using List.reverseRecOn with
  | nil => rfl
  | append_singleton ops op ih =>
    rw [applyBstOps_append, lastInserted_append]
    cases op with
    | clr => rfl
    | ins c =>
      simp only [applyBstOp]
      rw [bstSearch_bstInsert, ih]
      by_cases hk : k = c.courseNumber
      · rw [if_pos hk, if_pos hk.symm]
      · rw [if_neg hk, if_neg fun h => hk h.symm]

/-- A bound on all keys of a tree bounds every traversed record. -/
theorem allKeys_mem {p : Str → Bool} {t : BTree} (ht : allKeys p t = true) :
    ∀ c ∈ inOrderPrint t, p c.courseNumber = true := by
  induction t with
  | nil => simp [inOrderPrint]
  | node l d r ihl ihr =>
    simp only [allKeys, Bool.and_eq_true] at ht
    obtain ⟨⟨hd, hl⟩, hr⟩ := ht
    intro c hc
    simp only [inOrderPrint, List.mem_append, List.mem_cons] at hc
    rcases hc with h | h | h
    · exact ihl hl c h
    · rw [h]
      exact hd
    · exact ihr hr c h

/-- Under the invariant, the in-order traversal is strictly
increasing on course numbers. -/
theorem pairwise_inOrderPrint {t : BTree} (ht : isBST t = true) :
    (inOrderPrint t).Pairwise (fun a b => ltb a.courseNumber b.courseNumber = true) := by
  induction t with
  | nil => simp [inOrderPrint]
  | node l d r ihl ihr =>
    simp only [isBST, Bool.and_eq_true] at ht
    obtain ⟨⟨⟨hal, har⟩, hbl⟩, hbr⟩ := ht
    simp only [inOrderPrint]
    rw [List.pairwise_append]
    refine ⟨ihl hbl, ?_, ?_⟩
    · rw [List.pairwise_cons]
      exact ⟨fun b hb => allKeys_mem har b hb, ihr hbr⟩
    · intro a ha b hb
      have had := allKeys_mem hal a ha
      rcases List.mem_cons.mp hb with rfl | hb2
      · exact had
      · exact ltb_trans had (allKeys_mem har b hb2)

/-- Key membership after a tree insert: the inserted course number
joins the traversed course numbers, nothing else changes. -/
theorem mem_keys_bstInsert {t : BTree} {c : Course} {k : Str} :
    k ∈ (inOrderPrint (bstInsert t c)).map Course.courseNumber ↔
      k = c.courseNumber ∨ k ∈ (inOrderPrint t).map Course.courseNumber := by
  induction t with
  | nil => simp [bstInsert, inOrderPrint]
  | node l d r ihl ihr =>
    unfold bstInsert
    by_cases h1 : ltb c.courseNumber d.courseNumber = true
    · rw [if_pos h1]
      simp only [inOrderPrint, List.map_append, List.map_cons, List.mem_append,
        List.mem_cons, ihl]
      tauto
    · rw [if_neg h1]
      by_cases h2 : ltb d.courseNumber c.courseNumber = true
      · rw [if_pos h2]
        simp only [inOrderPrint, List.map_append, List.map_cons, List.mem_append,
          List.mem_cons, ihr]
        tauto
      · rw [if_neg h2]
        have heq : c.courseNumber = d.courseNumber :=
          ltb_eq_of_both_false (by simpa using h1) (by simpa using h2)
        simp only [inOrderPrint, List.map_append, List.map_cons, List.mem_append,
          List.mem_cons, heq]
        tauto

/-- The load loop of artifact2.cpp keeps the ordering invariant. -/
theorem isBST_foldl_insertParsedBst (fileLines : List Str) {t : BTree}
    (ht : isBST t = true) :
    isBST (fileLines.foldl insertParsedBst t) = true := by
  induction fileLines generalizing t with
  | nil => exact ht
  | cons l ls ih =>
    rw [List.foldl_cons]
    apply ih
    unfold insertParsedBst
    cases parseLineBst l with
    | none => exact ht
    | some c => exact isBST_bstInsert ht

/-- The course numbers traversed after the load loop are the initial
ones together with those of the accepted lines. -/
theorem mem_keys_foldl_insertParsedBst {fileLines : List Str} {t : BTree} {k : Str} :
    k ∈ (inOrderPrint (fileLines.foldl insertParsedBst t)).map Course.courseNumber ↔
      k ∈ (inOrderPrint t).map Course.courseNumber ∨
        k ∈ (fileLines.filterMap parseLineBst).map Course.courseNumber := by
  induction fileLines generalizing t with
  | nil => simp
  | cons l ls ih =>
    rw [List.foldl_cons, ih]
    unfold insertParsedBst
    cases hp : parseLineBst l with
    | none => simp [List.filterMap_cons, hp]
    | some c =>
      simp only [List.filterMap_cons, hp, List.map_cons, List.mem_cons, mem_keys_bstInsert]
      tauto

/-- Under the invariant the traversed course numbers are pairwise
distinct. -/
theorem nodup_keys_inOrderPrint {t : BTree} (ht : isBST t = true) :
    ((inOrderPrint t).map Course.courseNumber).Nodup := by
  have hp := pairwise_inOrderPrint ht
  rw [List.Nodup, List.pairwise_map]
  refine hp.imp ?_
  intro a b hab heq
  rw [heq, ltb_irrefl] at hab
  exact absurd hab (by simp)

/-- C2: both sorted enumerations are non-decreasing by identifier and
have as many entries as there are distinct normalized identifiers
among the inserted records: the printed course list of the map
variant under the lexicographic order on the printed identifiers, and
the in-order traversal of the tree built by the artifact2.cpp load,
which is even strictly increasing. -/
theorem c2_sorted_enumeration (fileLines : List Str) :
    ((printCourseList (buildCatalog fileLines)).Pairwise
        (fun a b => ltb b.1 a.1 = false) ∧
      (printCourseList (buildCatalog fileLines)).length =
        ((fileLines.filterMap parseLine).map Course.courseNumber).dedup.length) ∧
      (inOrderPrint (loadCoursesBst (some fileLines) BTree.nil).2).Pairwise
        (fun a b => ltb a.courseNumber b.courseNumber = true) ∧
      (inOrderPrint (loadCoursesBst (some fileLines) BTree.nil).2).length =
        ((fileLines.filterMap parseLineBst).map Course.courseNumber).dedup.length := by
  have hkeys : ∀ k ∈ sortedKeys (buildCatalog fileLines),
      k ∈ (buildCatalog fileLines).map Prod.fst := by
    intro k hk
    exact List.mem_mergeSort.mp hk
  -- the print loop is a total map over the sorted keys
  have hmap : printCourseList (buildCatalog fileLines) =
      (sortedKeys (buildCatalog fileLines)).map
        (fun k => (k, ((mapFind (buildCatalog fileLines) k).map Course.title).getD [])) := by
    apply filterMap_eq_map_of_forall
    intro k hk
    obtain ⟨c, hc1, hc2⟩ := mapFind_mem (hkeys k hk)
    have hck : c.courseNumber = k := buildCatalog_snd_key hc2
    rw [hc1]
    simp [hck]
  have htree : (loadCoursesBst (some fileLines) BTree.nil).2 =
      fileLines.foldl insertParsedBst BTree.nil := rfl
  have hinv : isBST (fileLines.foldl insertParsedBst BTree.nil) = true :=
    isBST_foldl_insertParsedBst fileLines rfl
  refine ⟨⟨?_, ?_⟩, ?_, ?_⟩
  · rw [hmap, List.pairwise_map]
    have hsorted := @List.sorted_mergeSort Str (fun a b : Str => !ltb b a)
      (fun a b c h1 h2 => by
        rw [Bool.not_eq_true'] at h1 h2 ⊢
        exact leb_trans h1 h2)
      leb_total
      ((buildCatalog fileLines).map Prod.fst)
    refine hsorted.imp ?_
    intro a b hab
    rw [Bool.not_eq_true'] at hab
    exact hab
  · rw [hmap, List.length_map]
    have hlen1 : (sortedKeys (buildCatalog fileLines)).length =
        ((buildCatalog fileLines).map Prod.fst).length :=
      (List.mergeSort_perm _ _).length_eq
    rw [hlen1]
    apply List.Perm.length_eq
    unfold buildCatalog
    rw [List.perm_ext_iff_of_nodup (nodup_keys_foldl (by simp)) (List.nodup_dedup _)]
    intro a
    rw [List.mem_dedup, mem_keys_foldl]
    simp
  · rw [htree]
    exact pairwise_inOrderPrint hinv
  · rw [htree]
    have hlen : (inOrderPrint (fileLines.foldl insertParsedBst BTree.nil)).length =
        ((inOrderPrint (fileLines.foldl insertParsedBst BTree.nil)).map
          Course.courseNumber).length := (List.length_map _ _).symm
    rw [hlen]
    apply List.Perm.length_eq
    rw [List.perm_ext_iff_of_nodup (nodup_keys_inOrderPrint hinv) (List.nodup_dedup _)]
    intro a
    rw [List.mem_dedup, mem_keys_foldl_insertParsedBst]
    simp [inOrderPrint]

/-- C10: after any sequence of insert and clear operations from the
empty tree the node tree satisfies the strict ordering invariant; a
search then returns a record under a key exactly when a record with
that course number was inserted after the last clear, namely the most
recently inserted one; and the in-order traversal is strictly
increasing on course numbers. -/
theorem c10_bst_invariant_search_inorder (ops : List BstOp) :
    isBST (applyBstOps ops .nil) = true ∧
      (∀ k, bstSearch (applyBstOps ops .nil) k = lastInserted ops k) ∧
      (inOrderPrint (applyBstOps ops .nil)).Pairwise
        (fun a b => ltb a.courseNumber b.courseNumber = true) := by
  have hinv : isBST (applyBstOps ops .nil) = true := by
    induction ops using List.reverseRecOn with
    | nil => rfl
    | append_singleton ops op ih =>
      rw [applyBstOps_append]
      cases op with
      | clr => rfl
      | ins c => exact isBST_bstInsert ih
  exact ⟨hinv, fun k => bstSearch_applyBstOps ops k, pairwise_inOrderPrint hinv⟩

end CoursePlanner
